import Mathlib

/-!
Verification of the nbest-reranking engine of `sockeye/rerank.py`.

The module reranks an n-best list of translation hypotheses stored as a JSON
object (`translations`, optionally `scores`, `text` and further fields) by a
sentence-level metric, using a stable-kind argsort whose direction depends on
the metric, and reorders every list-valued field of the record by the resulting
permutation.  The external metric implementations (sacrebleu's sentence BLEU and
chrF, and the isometric scorer from the utils module) are black-box
collaborators, modelled here as an explicit `ScoringEnv` of pure functions; the
Python floats they return are modelled as rationals.
-/

namespace Sockeye

/-- A JSON-like value, as parsed from one line of nbest input.  Numbers are
modelled as rationals. -/
inductive JVal where
  | jstr (s : String)
  | jnum (q : Rat)
  | jarr (xs : List JVal)

/-- A parsed nbest record: the Python dict, as an ordered association list of
keys with values. -/
abbrev Record := List (String × JVal)

namespace JVal

/-- Read a value as a string (a Python operation expecting `str` fails otherwise). -/
def asStr : JVal → Option String
  | jstr s => some s
  | _ => none

/-- Read a value as a number. -/
def asNum : JVal → Option Rat
  | jnum q => some q
  | _ => none

/-- Read a value as a list. -/
def asArr : JVal → Option (List JVal)
  | jarr xs => some xs
  | _ => none

/-- Read a value as a list of strings. -/
def asStrList : JVal → Option (List String)
  | jarr xs => xs.mapM asStr
  | _ => none

/-- Whether the value is a Python list (`isinstance(l, list)` in `ranksort`). -/
def isArr : JVal → Bool
  | jarr _ => true
  | _ => false

/-- Python `len()` of a JSON value: defined on lists and strings. -/
def jlen : JVal → Option Nat
  | jarr xs => some xs.length
  | jstr s => some s.length
  | jnum _ => none

end JVal

/-- Python dict lookup `rec[k]` on the record. -/
def findKey (rec : Record) (k : String) : Option JVal :=
  (rec.find? fun p => p.1 == k).map fun p => p.2

/-- Python dict assignment `rec[k] = v`: replaces the value at an existing key
in place, otherwise appends the new key at the end. -/
def setKey (rec : Record) (k : String) (v : JVal) : Record :=
  if rec.any fun p => p.1 == k then rec.map fun p => if p.1 == k then (k, v) else p
  else rec ++ [(k, v)]

/-- Modelled from the spec: the BLEU-like metric identifier (constant
`RERANK_BLEU` of the constants module, which is not among the given sources). -/
def RERANK_BLEU : String := "bleu"

/-- Modelled from the spec: the ChrF-like metric identifier (constant
`RERANK_CHRF` of the constants module, not among the given sources). -/
def RERANK_CHRF : String := "chrf"

/-- Modelled from the spec: the common shared start of the isometric family of
identifiers (constant `RERANK_ISOMETRIC` of the constants module, not among the
given sources). -/
def RERANK_ISOMETRIC : String := "isometric-"

/-- Modelled from the spec: the length-controlled isometric identifier, the one
metric ranked ascending (constant `RERANK_ISOMETRIC_LC` of the constants
module, not among the given sources). -/
def RERANK_ISOMETRIC_LC : String := "isometric-lc"

/-- Modelled from the spec: the enumerated list of valid metric identifiers
(constant `RERANK_METRICS` of the constants module, not among the given
sources). -/
def RERANK_METRICS : List String :=
  ["bleu", "chrf", "isometric-ratio", "isometric-diff", "isometric-lc"]

/-- The rendering of `RERANK_METRICS` interpolated into the error message. -/
def renderedChoices : String :=
  "['bleu', 'chrf', 'isometric-ratio', 'isometric-diff', 'isometric-lc']"

/-- The construction-time error message of `Reranker.__init__` (rerank.py:61). -/
def unknownMetricMsg (metric : String) : String :=
  "Scoring metric '" ++ metric ++ "' unknown. Choices are: " ++ renderedChoices

/-- The external scoring collaborators bound in `Reranker.__init__`:
sacrebleu's sentence BLEU (with add-k smoothing already applied) and sentence
chrF, and `utils.compute_isometric_score` (hypothesis, model score, source,
metric name, alpha).  All are pure black boxes per the spec. -/
structure ScoringEnv where
  sentence_bleu : String → List String → Rat
  sentence_chrf : String → List String → Rat
  compute_isometric_score : String → Rat → String → String → Rat → Rat

/-- The configuration state a `Reranker` holds after construction
(rerank.py:45-48); the scoring function and ranking direction are recovered
from `metric` exactly as the bound closures do. -/
structure Reranker where
  metric : String
  isometric_alpha : Rat
  return_score : Bool

/-- Python `str.startswith`, evaluated over the character lists. -/
def startsWithB (s pre : String) : Bool := pre.toList.isPrefixOf s.toList

/-- Constructor `Reranker.__init__` (rerank.py:45-66): accepts the BLEU identifier, the
ChrF identifier, and anything starting with the isometric family's shared
start; any other identifier raises a `SockeyeError` listing the choices. -/
def mkReranker (metric : String) (isometric_alpha : Rat) (return_score : Bool) :
    Except String Reranker :=
  if metric = RERANK_BLEU then Except.ok ⟨metric, isometric_alpha, return_score⟩
  else if metric = RERANK_CHRF then Except.ok ⟨metric, isometric_alpha, return_score⟩
  else if startsWithB metric RERANK_ISOMETRIC then Except.ok ⟨metric, isometric_alpha, return_score⟩
  else Except.error (unknownMetricMsg metric)

/-- Comparison of indices by score first and index second: the total order a
stable ascending argsort realises on the (distinct) indices of `scores`.
Out-of-range indices read a default, which the argsort never does. -/
def idxLe (scores : List Rat) (i j : Nat) : Prop :=
  scores.getD i 0 < scores.getD j 0 ∨ (scores.getD i 0 = scores.getD j 0 ∧ i ≤ j)

instance idxLeDecidable (scores : List Rat) : DecidableRel (idxLe scores) := fun i j => by
  unfold idxLe; exact inferInstance

instance idxLe_isTotal (scores : List Rat) : IsTotal Nat (idxLe scores) where
  total i j := by
    rcases lt_trichotomy (scores.getD i 0) (scores.getD j 0) with h | h | h
    · exact Or.inl (Or.inl h)
    · rcases Nat.le_total i j with hij | hij
      · exact Or.inl (Or.inr ⟨h, hij⟩)
      · exact Or.inr (Or.inr ⟨h.symm, hij⟩)
    · exact Or.inr (Or.inl h)

instance idxLe_isTrans (scores : List Rat) : IsTrans Nat (idxLe scores) where
  trans i j k hij hjk := by
    rcases hij with h₁ | ⟨e₁, l₁⟩
    · rcases hjk with h₂ | ⟨e₂, _⟩
      · exact Or.inl (h₁.trans h₂)
      · exact Or.inl (e₂ ▸ h₁)
    · rcases hjk with h₂ | ⟨e₂, l₂⟩
      · exact Or.inl (e₁ ▸ h₂)
      · exact Or.inr ⟨e₁.trans e₂, l₁.trans l₂⟩

/-- Model of `np.argsort(scores, kind='mergesort')`: the stable ascending argsort of
`scores`, i.e. the indices `0..N-1` sorted by score with ties in index order. -/
def argsortAsc (scores : List Rat) : List Nat :=
  List.insertionSort (idxLe scores) (List.range scores.length)

/-- Model of `Reranker._get_ranking_indices` (rerank.py:99-104): the stable ascending
argsort, reversed (`[::-1]`) when the order is descending. -/
def getRankingIndices (scores : List Rat) (order : String) : List Nat :=
  if order = "descending" then (argsortAsc scores).reverse else argsortAsc scores

/-- The ranking function bound at construction (rerank.py:63-66): ascending for
the length-controlled isometric metric, descending for every other metric. -/
def rankingIndices (metric : String) (scores : List Rat) : List Nat :=
  if metric = RERANK_ISOMETRIC_LC then getRankingIndices scores "ascending"
  else getRankingIndices scores "descending"

/-- Helper `ranksort` inside `Reranker._sort_by_ranking` (rerank.py:108-113): a list
value is re-indexed as `[l[i] for i in ranking]` (an out-of-range index is a
Python `IndexError`, modelled as `none`); a non-list value is unchanged. -/
def ranksort (ranking : List Nat) : JVal → Option JVal
  | JVal.jarr xs => (ranking.mapM fun i => xs[i]?).map JVal.jarr
  | v => some v

/-- Model of `Reranker._sort_by_ranking` (rerank.py:106-115): every value of the record
goes through `ranksort`. -/
def sortByRanking (hypotheses : Record) (ranking : List Nat) : Option Record :=
  hypotheses.mapM fun p => (ranksort ranking p.2).map fun v => (p.1, v)

/-- The per-hypothesis score computation of `Reranker.rerank` (rerank.py:78-90):
reference-overlap metrics score each hypothesis against the single reference;
isometric metrics score each hypothesis with the first of its model scores and
the record's source text. -/
def computeScores (env : ScoringEnv) (r : Reranker) (hypotheses : Record)
    (reference : String) : Option (List Rat) :=
  if r.metric = RERANK_BLEU then
    (findKey hypotheses "translations").bind JVal.asStrList |>.map
      fun ts => ts.map fun h => env.sentence_bleu h [reference]
  else if r.metric = RERANK_CHRF then
    (findKey hypotheses "translations").bind JVal.asStrList |>.map
      fun ts => ts.map fun h => env.sentence_chrf h [reference]
  else if startsWithB r.metric RERANK_ISOMETRIC then do
    let source ← (findKey hypotheses "text").bind JVal.asStr
    let ts ← (findKey hypotheses "translations").bind JVal.asStrList
    let ss ← (findKey hypotheses "scores").bind JVal.asArr
    (ts.zip ss).mapM fun p => do
      let hsArr ← p.2.asArr
      let h0 ← hsArr[0]?
      let q ← h0.asNum
      pure (env.compute_isometric_score p.1 q source r.metric r.isometric_alpha)
  else none

/-- Model of `Reranker.rerank` (rerank.py:69-97): compute scores, rank, reorder the
record, and when `return_score` is set overwrite `scores` with the computed
scores in ranked order and `score` with the first of them. -/
def Reranker.rerank (env : ScoringEnv) (r : Reranker) (hypotheses : Record)
    (reference : String) : Option Record := do
  let scores ← computeScores env r hypotheses reference
  let ranking := rankingIndices r.metric scores
  let reranked ← sortByRanking hypotheses ranking
  if r.return_score then
    let sorted ← ranking.mapM fun i => scores[i]?
    let s0 ← sorted[0]?
    pure (setKey (setKey reranked "scores" (JVal.jarr (sorted.map JVal.jnum)))
      "score" (JVal.jnum s0))
  else
    pure reranked

/-- The computed scores read in output order: `[scores[i] for i in ranking]`. -/
def sortedScores (metric : String) (scores : List Rat) : List Rat :=
  (rankingIndices metric scores).map fun i => scores.getD i 0

/-- The per-record step of the driver loop (rerank.py:135-143): the record must
carry a `translations` key; a record with at most one hypothesis is passed
through unchanged without any scoring, otherwise it is reranked. -/
def processRecord (env : ScoringEnv) (r : Reranker) (rec : Record)
    (reference : String) : Option Record := do
  let tv ← findKey rec "translations"
  let n ← tv.jlen
  if n ≤ 1 then pure rec else Reranker.rerank env r rec reference

/-- The forward scan of rerank.py:154-162: walk the hypotheses in ranked order,
keeping the current (possibly blank) candidate, and stop at the first non-blank
one. -/
def scanFrom (ts : List String) (cur : String) : List Nat → Option String
  | [] => some cur
  | h :: rest =>
    match ts[h]? with
    | none => none
    | some s => if s = "" then scanFrom ts s rest else some s

/-- The best-hypothesis emission stage (rerank.py:145-164): take the first
ranked hypothesis (empty for an empty record), optionally substitute the
reference for a blank, and optionally scan forward for a non-blank hypothesis
when the record has more than one. -/
def emitBest (outputRefFlag scanFlag : Bool) (reference : String)
    (reranked : Record) (numHyp : Nat) : Option String := do
  let best0 ←
    if numHyp ≠ 0 then do
      let tv ← findKey reranked "translations"
      let ts ← tv.asStrList
      ts[0]?
    else pure ""
  let best1 := if best0 = "" ∧ outputRefFlag = true then reference else best0
  if best1 = "" ∧ scanFlag = true ∧ 1 < numHyp then do
    let tv ← findKey reranked "translations"
    let ts ← tv.asStrList
    scanFrom ts "" (List.range numHyp)
  else pure best1

/-- One full driver iteration in best-hypothesis output mode
(rerank.py:135-164): the no-op short-circuit for degenerate records followed by
the best-hypothesis emission with its fallback chain. -/
def processLineBest (env : ScoringEnv) (r : Reranker) (outputRefFlag scanFlag : Bool)
    (reference : String) (rec : Record) : Option String := do
  let tv ← findKey rec "translations"
  let n ← tv.jlen
  let reranked ← if n ≤ 1 then pure rec else Reranker.rerank env r rec reference
  emitBest outputRefFlag scanFlag reference reranked n

/-- Whether `pat` occurs in `s` as a contiguous run of characters. -/
def listIsSub (pat s : List Char) : Bool :=
  (List.range (s.length + 1)).any fun k => pat.isPrefixOf (s.drop k)

/-- Substring test on strings, used to state that the construction error
message enumerates the valid metric identifiers. -/
def substrB (pat s : String) : Bool := listIsSub pat.toList s.toList

/-- A concrete black-box scoring assignment used to exercise the model: the
reference-overlap scorers rate the hypothesis `"bb"` above everything else and
the isometric scorer passes the model score through. -/
def envDemo : ScoringEnv where
  sentence_bleu := fun h _ => if h = "bb" then 2 else 1
  sentence_chrf := fun h _ => if h = "bb" then 2 else 1
  compute_isometric_score := fun _ q _ _ _ => q

/-- A BLEU reranker without score attachment, as built by `mkReranker`. -/
def rerankerBleu : Reranker := ⟨RERANK_BLEU, 1/2, false⟩

/-- A BLEU reranker with score attachment. -/
def rerankerBleuScores : Reranker := ⟨RERANK_BLEU, 1/2, true⟩

/-- A record with two hypotheses and an extra list field of a different
length. -/
def recDemo : Record :=
  [("translations", JVal.jarr [JVal.jstr "a", JVal.jstr "bb"]),
   ("extra", JVal.jarr [JVal.jstr "x", JVal.jstr "y", JVal.jstr "z"])]

/-- The result of reranking `recDemo` under `envDemo` with the BLEU metric. -/
def recDemoRer : Record :=
  [("translations", JVal.jarr [JVal.jstr "bb", JVal.jstr "a"]),
   ("extra", JVal.jarr [JVal.jstr "y", JVal.jstr "x"])]

/-- The result of reranking `recDemo` with score attachment enabled. -/
def recDemoScored : Record :=
  [("translations", JVal.jarr [JVal.jstr "bb", JVal.jstr "a"]),
   ("extra", JVal.jarr [JVal.jstr "y", JVal.jstr "x"]),
   ("scores", JVal.jarr [JVal.jnum 2, JVal.jnum 1]),
   ("score", JVal.jnum 2)]

/-- A record carrying upstream per-hypothesis model-score sequences. -/
def recDemoS : Record :=
  [("translations", JVal.jarr [JVal.jstr "a", JVal.jstr "bb"]),
   ("scores", JVal.jarr [JVal.jarr [JVal.jnum 9], JVal.jarr [JVal.jnum 8]])]

/-- The result of reranking `recDemoS` with score attachment enabled: the
upstream score sequences `[[9], [8]]` are gone, replaced in place by the flat
computed scores in ranked order. -/
def recDemoSOut : Record :=
  [("translations", JVal.jarr [JVal.jstr "bb", JVal.jstr "a"]),
   ("scores", JVal.jarr [JVal.jnum 2, JVal.jnum 1]),
   ("score", JVal.jnum 2)]

/-- A record with a single hypothesis. -/
def recSingle : Record := [("translations", JVal.jarr [JVal.jstr "hello"])]

/-- A record whose ranked hypotheses are two blanks followed by a good one. -/
def recBlank2Good : Record :=
  [("translations", JVal.jarr [JVal.jstr "", JVal.jstr "", JVal.jstr "good translation"])]

/-- A record with a single blank hypothesis. -/
def recSingleBlank : Record := [("translations", JVal.jarr [JVal.jstr ""])]

/-! ### Lemmas about the stable argsort and the ranking permutation -/

theorem argsortAsc_perm (s : List Rat) : (argsortAsc s).Perm (List.range s.length) :=
  List.perm_insertionSort _ _

theorem argsortAsc_sorted (s : List Rat) : List.Sorted (idxLe s) (argsortAsc s) :=
  List.sorted_insertionSort _ _

theorem rankingIndices_eq (m : String) (s : List Rat) :
    rankingIndices m s =
      if m = RERANK_ISOMETRIC_LC then argsortAsc s else (argsortAsc s).reverse := by
  unfold rankingIndices getRankingIndices
  split
  · rw [if_neg (by decide)]
  · rw [if_pos rfl]

theorem rankingIndices_perm (m : String) (s : List Rat) :
    (rankingIndices m s).Perm (List.range s.length) := by
  rw [rankingIndices_eq]
  split
  · exact argsortAsc_perm s
  · exact (List.reverse_perm _).trans (argsortAsc_perm s)

theorem mem_rankingIndices_lt {m : String} {s : List Rat} {i : Nat}
    (h : i ∈ rankingIndices m s) : i < s.length :=
  List.mem_range.mp ((rankingIndices_perm m s).mem_iff.mp h)

theorem length_rankingIndices (m : String) (s : List Rat) :
    (rankingIndices m s).length = s.length := by
  have := (rankingIndices_perm m s).length_eq
  simpa using this

theorem map_getD_range {α : Type} (l : List α) (d : α) :
    (List.range l.length).map (fun i => l.getD i d) = l := by
  apply List.ext_getElem
  · simp
  · intro i h1 h2
    simp only [List.getElem_map, List.getElem_range]
    exact List.getD_eq_getElem l d h2

theorem perm_map_getD {α : Type} (l : List α) (d : α) {rk : List Nat}
    (h : rk.Perm (List.range l.length)) :
    (rk.map fun i => l.getD i d).Perm l := by
  have hm := h.map fun i => l.getD i d
  rwa [map_getD_range] at hm

theorem mapM_eq_map_of_forall {α β : Type} (f : α → Option β) (g : α → β) :
    ∀ l : List α, (∀ a ∈ l, f a = some (g a)) → l.mapM f = some (l.map g) := by
  intro l
  induction l with
  | nil => intro _; rfl
  | cons a t ih =>
    intro h
    rw [List.mapM_cons, h a (List.mem_cons_self a t),
      ih fun x hx => h x (List.mem_cons_of_mem a hx)]
    rfl

theorem mapM_getElem?_eq {α : Type} (l : List α) (d : α) {rk : List Nat}
    (h : ∀ i ∈ rk, i < l.length) :
    (rk.mapM fun i => l[i]?) = some (rk.map fun i => l.getD i d) := by
  apply mapM_eq_map_of_forall
  intro i hi
  rw [List.getElem?_eq_getElem (h i hi)]
  exact congrArg some (List.getD_eq_getElem l d (h i hi)).symm

theorem sortedScores_perm (m : String) (s : List Rat) : (sortedScores m s).Perm s :=
  perm_map_getD s 0 (rankingIndices_perm m s)

theorem sorted_map_argsortAsc (s : List Rat) :
    List.Sorted (· ≤ ·) ((argsortAsc s).map fun i => s.getD i 0) := by
  have h := argsortAsc_sorted s
  rw [List.Sorted, List.pairwise_map]
  refine h.imp fun hab => ?_
  rcases hab with hlt | ⟨heq, _⟩
  · exact le_of_lt hlt
  · exact le_of_eq heq

theorem sortedScores_sorted (m : String) (s : List Rat) :
    (m = RERANK_ISOMETRIC_LC → List.Sorted (· ≤ ·) (sortedScores m s)) ∧
    (m ≠ RERANK_ISOMETRIC_LC → List.Sorted (· ≥ ·) (sortedScores m s)) := by
  constructor
  · intro hm
    rw [sortedScores, rankingIndices_eq, if_pos hm]
    exact sorted_map_argsortAsc s
  · intro hm
    rw [sortedScores, rankingIndices_eq, if_neg hm, List.map_reverse]
    rw [List.Sorted, List.pairwise_reverse]
    exact sorted_map_argsortAsc s

theorem sorted_ge_head {l : List Rat} (h : List.Sorted (· ≥ ·) l) :
    ∀ x ∈ l, x ≤ l.headD 0 := by
  cases l with
  | nil => intro x hx; cases hx
  | cons a t =>
    intro x hx
    rcases List.mem_cons.mp hx with rfl | hx
    · exact le_refl _
    · exact (List.sorted_cons.mp h).1 x hx

theorem sorted_le_head {l : List Rat} (h : List.Sorted (· ≤ ·) l) :
    ∀ x ∈ l, l.headD 0 ≤ x := by
  cases l with
  | nil => intro x hx; cases hx
  | cons a t =>
    intro x hx
    rcases List.mem_cons.mp hx with rfl | hx
    · exact le_refl _
    · exact (List.sorted_cons.mp h).1 x hx

theorem headD_mem {α : Type} {l : List α} (d : α) (h : l ≠ []) : l.headD d ∈ l := by
  cases l with
  | nil => exact absurd rfl h
  | cons a t => exact List.mem_cons_self a t

/-! ### Lemmas about dict lookup and assignment -/

theorem findKey_cons (k₁ : String) (v₁ : JVal) (rest : Record) (k : String) :
    findKey ((k₁, v₁) :: rest) k = if k₁ == k then some v₁ else findKey rest k := by
  unfold findKey
  rw [List.find?_cons]
  cases h : (k₁ == k) <;> simp [h]

theorem findKey_none_of_any_false {rec : Record} {k : String}
    (h : (rec.any fun p => p.1 == k) = false) : findKey rec k = none := by
  induction rec with
  | nil => rfl
  | cons p rest ih =>
    obtain ⟨k₁, v₁⟩ := p
    rw [List.any_cons, Bool.or_eq_false_iff] at h
    rw [findKey_cons, if_neg (by simp [h.1]), ih h.2]

theorem findKey_map_set_self {rec : Record} {k : String} {v : JVal}
    (h : (rec.any fun p => p.1 == k) = true) :
    findKey (rec.map fun p => if p.1 == k then (k, v) else p) k = some v := by
  induction rec with
  | nil => simp at h
  | cons p rest ih =>
    obtain ⟨k₁, v₁⟩ := p
    rw [List.any_cons] at h
    cases hk : (k₁ == k) with
    | true =>
      have hhead : (if ((k₁, v₁).1 == k) = true then (k, v) else (k₁, v₁)) = (k, v) := by
        simp [hk]
      rw [List.map_cons, hhead, findKey_cons, if_pos (by simp)]
    | false =>
      have hhead : (if ((k₁, v₁).1 == k) = true then (k, v) else (k₁, v₁)) = (k₁, v₁) := by
        simp [hk]
      rw [List.map_cons, hhead, findKey_cons, if_neg (by simp [hk])]
      exact ih (by simpa [hk] using h)

theorem findKey_setKey_self (rec : Record) (k : String) (v : JVal) :
    findKey (setKey rec k v) k = some v := by
  unfold setKey
  by_cases h : (rec.any fun p => p.1 == k) = true
  · rw [if_pos h]
    exact findKey_map_set_self h
  · rw [if_neg h]
    have hf : (rec.any fun p => p.1 == k) = false := by
      cases hb : rec.any fun p => p.1 == k with
      | false => rfl
      | true => exact absurd hb h
    unfold findKey
    rw [List.find?_append]
    have hnone : (rec.find? fun p => p.1 == k) = none := by
      have h2 := findKey_none_of_any_false hf
      unfold findKey at h2
      cases hf2 : rec.find? fun p => p.1 == k
      · rfl
      · rw [hf2] at h2; simp at h2
    rw [hnone]
    simp [List.find?]

theorem findKey_map_set_ne {rec : Record} {k k' : String} (hne : k' ≠ k) (v : JVal) :
    findKey (rec.map fun p => if p.1 == k' then (k', v) else p) k = findKey rec k := by
  induction rec with
  | nil => rfl
  | cons p rest ih =>
    obtain ⟨k₁, v₁⟩ := p
    cases hk : (k₁ == k') with
    | true =>
      have hk₁ : k₁ = k' := by simpa using hk
      have hhead : (if ((k₁, v₁).1 == k') = true then (k', v) else (k₁, v₁)) = (k', v) := by
        simp [hk]
      rw [List.map_cons, hhead, findKey_cons, findKey_cons,
        if_neg (by simp [hne]), if_neg (by simp [hk₁, hne]), ih]
    | false =>
      have hhead : (if ((k₁, v₁).1 == k') = true then (k', v) else (k₁, v₁)) = (k₁, v₁) := by
        simp [hk]
      rw [List.map_cons, hhead, findKey_cons, findKey_cons, ih]

theorem findKey_setKey_ne (rec : Record) {k k' : String} (hne : k' ≠ k) (v : JVal) :
    findKey (setKey rec k' v) k = findKey rec k := by
  unfold setKey
  by_cases h : (rec.any fun p => p.1 == k') = true
  · rw [if_pos h]
    exact findKey_map_set_ne hne v
  · rw [if_neg h]
    unfold findKey
    rw [List.find?_append]
    have hkb : (k' == k) = false := by
      cases hb : (k' == k) with
      | false => rfl
      | true => exact absurd (by simpa using hb) hne
    have hone : (([(k', v)] : Record).find? fun p => p.1 == k) = none := by
      simp [List.find?, hkb]
    rw [hone]
    cases rec.find? fun p => p.1 == k <;> rfl

/-! ### Structure of `_sort_by_ranking` and `rerank` runs -/

theorem sortByRanking_findKey :
    ∀ {rec out : Record} {rk : List Nat}, sortByRanking rec rk = some out →
      ∀ k, findKey out k = (findKey rec k).bind (ranksort rk) := by
  intro rec
  induction rec with
  | nil =>
    intro out rk h k
    unfold sortByRanking at h
    simp only [List.mapM_nil] at h
    cases h
    rfl
  | cons p rest ih =>
    intro out rk h k
    obtain ⟨k₁, v₁⟩ := p
    unfold sortByRanking at h
    rw [List.mapM_cons] at h
    cases hv : ranksort rk v₁ with
    | none => rw [hv] at h; simp at h
    | some w =>
      rw [hv] at h
      cases hrest : rest.mapM fun p => (ranksort rk p.2).map fun v => (p.1, v) with
      | none => rw [hrest] at h; simp at h
      | some out' =>
        rw [hrest] at h
        simp only [Option.map_some, Option.bind_some, Option.some_bind] at h
        have hout : out = (k₁, w) :: out' := by
          cases h; rfl
        subst hout
        rw [findKey_cons, findKey_cons]
        cases hk : (k₁ == k) with
        | true => simp [hk, hv]
        | false =>
          rw [if_neg (by simp [hk]), if_neg (by simp [hk])]
          exact ih hrest k

theorem getElem?_zero_eq_headD {α : Type} {l : List α} (d : α) (h : l ≠ []) :
    l[0]? = some (l.headD d) := by
  cases l with
  | nil => exact absurd rfl h
  | cons a t => simp

theorem sortedScores_ne_nil {m : String} {s : List Rat} (h : s ≠ []) :
    sortedScores m s ≠ [] := by
  intro hc
  apply h
  have hp := sortedScores_perm m s
  rw [hc] at hp
  exact hp.symm.eq_nil

/-- Running `Reranker.rerank` to a result decomposes into the computed scores,
the reordered record, and (when scores are attached) the two assignments. -/
theorem rerank_run {env : ScoringEnv} {r : Reranker} {hyp : Record} {ref : String}
    {out : Record} (h : Reranker.rerank env r hyp ref = some out) :
    ∃ scores reranked, computeScores env r hyp ref = some scores ∧
      sortByRanking hyp (rankingIndices r.metric scores) = some reranked ∧
      ((r.return_score = false ∧ out = reranked) ∨
       (r.return_score = true ∧ scores ≠ [] ∧
        out = setKey (setKey reranked "scores"
            (JVal.jarr ((sortedScores r.metric scores).map JVal.jnum)))
          "score" (JVal.jnum ((sortedScores r.metric scores).headD 0)))) := by
  unfold Reranker.rerank at h
  cases hsc : computeScores env r hyp ref with
  | none => rw [hsc] at h; simp at h
  | some scores =>
    rw [hsc] at h
    simp only [Option.bind_eq_bind, Option.some_bind] at h
    cases hsb : sortByRanking hyp (rankingIndices r.metric scores) with
    | none => rw [hsb] at h; simp at h
    | some reranked =>
      rw [hsb] at h
      simp only [Option.bind_eq_bind, Option.some_bind] at h
      refine ⟨scores, reranked, rfl, hsb, ?_⟩
      cases hrs : r.return_score with
      | false =>
        rw [hrs] at h
        simp only [Bool.false_eq_true, if_false] at h
        cases h
        exact Or.inl ⟨rfl, rfl⟩
      | true =>
        rw [hrs] at h
        simp only [if_true] at h
        have hmm : ((rankingIndices r.metric scores).mapM fun i => scores[i]?)
            = some (sortedScores r.metric scores) :=
          mapM_getElem?_eq scores 0 fun i hi => mem_rankingIndices_lt hi
        rw [hmm] at h
        simp only [Option.bind_eq_bind, Option.some_bind] at h
        by_cases hsne : scores = []
        · exfalso
          have hnil : sortedScores r.metric scores = [] := by
            subst hsne
            have hlen := length_rankingIndices r.metric []
            simp only [List.length_nil] at hlen
            rw [sortedScores, List.length_eq_zero.mp hlen]
            rfl
          rw [hnil] at h
          simp at h
        · rw [getElem?_zero_eq_headD 0 (sortedScores_ne_nil hsne)] at h
          simp only [Option.bind_eq_bind, Option.some_bind] at h
          cases h
          exact Or.inr ⟨rfl, hsne, rfl⟩

theorem listIsSub_append {pat t : List Char} (s : List Char)
    (h : listIsSub pat t = true) : listIsSub pat (s ++ t) = true := by
  unfold listIsSub at h ⊢
  rw [List.any_eq_true] at h ⊢
  obtain ⟨k, hk, hpre⟩ := h
  refine ⟨s.length + k, ?_, ?_⟩
  · rw [List.mem_range] at hk ⊢
    rw [List.length_append]
    omega
  · rw [List.drop_append]
    exact hpre

theorem substrB_append_right (pat s t : String) (h : substrB pat t = true) :
    substrB pat (s ++ t) = true := by
  unfold substrB at h ⊢
  have hl : (s ++ t).toList = s.toList ++ t.toList := by
    simp [String.toList]
  rw [hl]
  exact listIsSub_append s.toList h

/-! ### The claims -/

/-- C1 (code bug): the ranking bound for descending metrics, evaluated at the
spec's stability example.  On computed scores `[3, 5, 5, 1]` the code returns
the index order `[2, 1, 0, 3]`: the tied hypotheses 1 and 2 come out in
reversed input order, not the stable `[1, 2, 0, 3]` that the claim (and the
method's own "Uses stable sorting" docstring) requires, because reversing a
stable ascending argsort reverses ties as well. -/
theorem c1_ranking_unstable_on_example :
    rankingIndices RERANK_BLEU [3, 5, 5, 1] = [2, 1, 0, 3] ∧
      ([2, 1, 0, 3] : List Nat) ≠ [1, 2, 0, 3] := by
  decide

/-- C2 (confirmed): for every record and reference whose scores compute, the
computed scores read in the output order are non-decreasing for the
length-controlled isometric metric and non-increasing for every other metric
(BLEU-like, ChrF-like, the remaining isometric sub-variants). -/
theorem c2_direction_correctness (env : ScoringEnv) (r : Reranker) (hyp : Record)
    (ref : String) (scores : List Rat)
    (_h : computeScores env r hyp ref = some scores) :
    (r.metric = RERANK_ISOMETRIC_LC → List.Sorted (· ≤ ·) (sortedScores r.metric scores)) ∧
    (r.metric ≠ RERANK_ISOMETRIC_LC → List.Sorted (· ≥ ·) (sortedScores r.metric scores)) :=
  sortedScores_sorted r.metric scores

/-- Witness for C2 at a concrete run of the BLEU metric. -/
theorem c2_witness :
    computeScores envDemo rerankerBleu recDemo "ref" = some [1, 2] ∧
      List.Sorted (· ≥ ·) (sortedScores RERANK_BLEU [1, 2]) :=
  ⟨rfl, (c2_direction_correctness envDemo rerankerBleu recDemo "ref" [1, 2] rfl).2
    (by decide)⟩

/-- C3 (confirmed): whenever `rerank` succeeds on a record whose computed
scores are parallel to its `translations`, the output `translations` is a
permutation of the input `translations`. -/
theorem c3_translations_perm (env : ScoringEnv) (r : Reranker) (hyp : Record)
    (ref : String) (out : Record) (scores : List Rat) (tsv : List JVal)
    (hrun : Reranker.rerank env r hyp ref = some out)
    (hsc : computeScores env r hyp ref = some scores)
    (htr : findKey hyp "translations" = some (JVal.jarr tsv))
    (hlen : scores.length = tsv.length) :
    ∃ tsv', findKey out "translations" = some (JVal.jarr tsv') ∧ tsv'.Perm tsv := by
  obtain ⟨scores', reranked, hsc', hsb, hrest⟩ := rerank_run hrun
  rw [hsc] at hsc'
  obtain rfl : scores = scores' := Option.some.inj hsc'
  have hfind : findKey out "translations" = findKey reranked "translations" := by
    rcases hrest with ⟨_, rfl⟩ | ⟨_, _, rfl⟩
    · rfl
    · rw [findKey_setKey_ne _ (by decide) _, findKey_setKey_ne _ (by decide) _]
  have hks := sortByRanking_findKey hsb "translations"
  rw [htr] at hks
  have hlt : ∀ i ∈ rankingIndices r.metric scores, i < tsv.length := by
    intro i hi
    have hi' := mem_rankingIndices_lt hi
    rwa [hlen] at hi'
  have hmapM := mapM_getElem?_eq tsv (JVal.jnum 0) hlt
  refine ⟨(rankingIndices r.metric scores).map fun i => tsv.getD i (JVal.jnum 0), ?_, ?_⟩
  · rw [hfind, hks]
    show ((rankingIndices r.metric scores).mapM fun i => tsv[i]?).map JVal.jarr = _
    rw [hmapM]
    rfl
  · have hperm := rankingIndices_perm r.metric scores
    rw [hlen] at hperm
    exact perm_map_getD tsv (JVal.jnum 0) hperm

/-- Witness for C3 at a concrete run of the BLEU metric. -/
theorem c3_witness :
    ∃ tsv', findKey recDemoRer "translations" = some (JVal.jarr tsv') ∧
      tsv'.Perm [JVal.jstr "a", JVal.jstr "bb"] :=
  c3_translations_perm envDemo rerankerBleu recDemo "ref" recDemoRer [1, 2]
    [JVal.jstr "a", JVal.jstr "bb"] rfl rfl rfl rfl

/-- C4 counterexample: the claim that a sequence field whose length differs
from N is left unpermuted is false.  On `recDemo`, whose field `extra` has
three entries while there are two hypotheses, the reranked `extra` is
`["y", "x"]` — re-indexed by the permutation and truncated — not the original
`["x", "y", "z"]`. -/
theorem c4_counterexample :
    (Reranker.rerank envDemo rerankerBleu recDemo "ref").bind (fun o => findKey o "extra")
        = some (JVal.jarr [JVal.jstr "y", JVal.jstr "x"]) ∧
      findKey recDemo "extra" = some (JVal.jarr [JVal.jstr "x", JVal.jstr "y", JVal.jstr "z"]) ∧
      JVal.jarr [JVal.jstr "y", JVal.jstr "x"] ≠
        JVal.jarr [JVal.jstr "x", JVal.jstr "y", JVal.jstr "z"] := by
  refine ⟨rfl, rfl, ?_⟩
  intro hc
  have hlen := congrArg
    (fun v => match v with | JVal.jarr xs => xs.length | _ => 0) hc
  simp at hlen

/-- C4 (amended): with score attachment disabled, a successful `rerank` leaves
every non-list field unchanged and replaces every list-valued field — of any
length — by the re-indexing `F_out[j] = F_in[permutation[j]]` of the ranking
permutation (failing if the field is too short), rather than leaving
differently-sized fields alone. -/
theorem c4_field_alignment (env : ScoringEnv) (r : Reranker) (hyp : Record)
    (ref : String) (out : Record) (scores : List Rat)
    (hrs : r.return_score = false)
    (hrun : Reranker.rerank env r hyp ref = some out)
    (hsc : computeScores env r hyp ref = some scores) :
    (∀ k, findKey out k = (findKey hyp k).bind (ranksort (rankingIndices r.metric scores))) ∧
    (∀ k v, findKey hyp k = some v → v.isArr = false → findKey out k = some v) := by
  obtain ⟨scores', reranked, hsc', hsb, hrest⟩ := rerank_run hrun
  rw [hsc] at hsc'
  obtain rfl : scores = scores' := Option.some.inj hsc'
  have hout : out = reranked := by
    rcases hrest with ⟨_, rfl⟩ | ⟨htrue, _, _⟩
    · rfl
    · rw [hrs] at htrue; cases htrue
  subst hout
  constructor
  · exact sortByRanking_findKey hsb
  · intro k v hv hnarr
    rw [sortByRanking_findKey hsb k, hv]
    cases v with
    | jstr s => rfl
    | jnum q => rfl
    | jarr xs => simp [JVal.isArr] at hnarr

/-- Witness for C4's amended claim at a concrete run. -/
theorem c4_witness :
    findKey recDemoRer "translations"
        = (findKey recDemo "translations").bind
            (ranksort (rankingIndices RERANK_BLEU [1, 2])) :=
  (c4_field_alignment envDemo rerankerBleu recDemo "ref" recDemoRer [1, 2]
    rfl rfl rfl).1 "translations"

/-- C5 (confirmed, constants modelled from the spec): construction rejects any
identifier outside the three recognized families with an error naming every
valid choice, and accepts every enumerated identifier. -/
theorem c5_metric_validation (metric : String) (a : Rat) (rs : Bool) :
    ((metric ≠ RERANK_BLEU ∧ metric ≠ RERANK_CHRF ∧
        startsWithB metric RERANK_ISOMETRIC = false) →
      mkReranker metric a rs = Except.error (unknownMetricMsg metric) ∧
      ∀ c ∈ RERANK_METRICS, substrB c (unknownMetricMsg metric) = true) ∧
    (metric ∈ RERANK_METRICS → ∃ rr, mkReranker metric a rs = Except.ok rr) := by
  constructor
  · rintro ⟨h1, h2, h3⟩
    constructor
    · unfold mkReranker
      rw [if_neg h1, if_neg h2, if_neg (by simp [h3])]
    · intro c hc
      have hsub : ∀ c ∈ RERANK_METRICS, substrB c renderedChoices = true := by decide
      unfold unknownMetricMsg
      exact substrB_append_right c _ renderedChoices (hsub c hc)
  · intro hm
    simp only [RERANK_METRICS, List.mem_cons, List.not_mem_nil, or_false] at hm
    rcases hm with rfl | rfl | rfl | rfl | rfl
    · exact ⟨_, rfl⟩
    · exact ⟨_, rfl⟩
    · exact ⟨_, rfl⟩
    · exact ⟨_, rfl⟩
    · exact ⟨_, rfl⟩

/-- Witness for C5: the literal `"not-a-real-metric"` is rejected with the
enumerated message, and `"bleu"` is accepted. -/
theorem c5_witness :
    (mkReranker "not-a-real-metric" (1/2) false
        = Except.error (unknownMetricMsg "not-a-real-metric")) ∧
      ∃ rr, mkReranker "bleu" (1/2) false = Except.ok rr :=
  ⟨((c5_metric_validation "not-a-real-metric" (1/2) false).1 (by decide)).1,
   (c5_metric_validation "bleu" (1/2) false).2 (by decide)⟩

/-- C6 (confirmed): a record with at most one hypothesis passes through the
driver loop unchanged; the result does not depend on the scoring environment
(the theorem holds for every `env`), so no scoring call is involved. -/
theorem c6_noop_degenerate (env : ScoringEnv) (r : Reranker) (rec : Record)
    (ref : String) (tv : JVal) (n : Nat)
    (htr : findKey rec "translations" = some tv)
    (hn : tv.jlen = some n)
    (hle : n ≤ 1) :
    processRecord env r rec ref = some rec := by
  unfold processRecord
  rw [htr]
  simp only [Option.bind_eq_bind, Option.some_bind]
  rw [hn]
  simp only [Option.some_bind]
  rw [if_pos hle]
  rfl

/-- Witness for C6 on a single-hypothesis record. -/
theorem c6_witness : processRecord envDemo rerankerBleu recSingle "ref" = some recSingle :=
  c6_noop_degenerate envDemo rerankerBleu recSingle "ref"
    (JVal.jarr [JVal.jstr "hello"]) 1 rfl rfl (by decide)

/-- C7 (confirmed): with score attachment enabled, the attached `scores` are
the computed scores in ranked order, the attached `score` is their first
element, and that element is a maximum of the computed scores for descending
metrics and a minimum for the length-controlled isometric metric. -/
theorem c7_score_attachment (env : ScoringEnv) (r : Reranker) (hyp : Record)
    (ref : String) (out : Record) (scores : List Rat)
    (hrs : r.return_score = true)
    (hrun : Reranker.rerank env r hyp ref = some out)
    (hsc : computeScores env r hyp ref = some scores) :
    findKey out "scores" = some (JVal.jarr ((sortedScores r.metric scores).map JVal.jnum)) ∧
    findKey out "score" = some (JVal.jnum ((sortedScores r.metric scores).headD 0)) ∧
    (sortedScores r.metric scores).headD 0 ∈ scores ∧
    (r.metric = RERANK_ISOMETRIC_LC →
      ∀ x ∈ scores, (sortedScores r.metric scores).headD 0 ≤ x) ∧
    (r.metric ≠ RERANK_ISOMETRIC_LC →
      ∀ x ∈ scores, x ≤ (sortedScores r.metric scores).headD 0) := by
  obtain ⟨scores', reranked, hsc', hsb, hrest⟩ := rerank_run hrun
  rw [hsc] at hsc'
  obtain rfl : scores = scores' := Option.some.inj hsc'
  rcases hrest with ⟨hfalse, _⟩ | ⟨_, hne, rfl⟩
  · rw [hrs] at hfalse; cases hfalse
  have hperm := sortedScores_perm r.metric scores
  refine ⟨?_, ?_, ?_, ?_, ?_⟩
  · rw [findKey_setKey_ne _ (by decide) _]
    exact findKey_setKey_self _ _ _
  · exact findKey_setKey_self _ _ _
  · exact hperm.mem_iff.mp (headD_mem 0 (sortedScores_ne_nil hne))
  · intro hm x hx
    exact sorted_le_head ((sortedScores_sorted r.metric scores).1 hm) x
      (hperm.mem_iff.mpr hx)
  · intro hm x hx
    exact sorted_ge_head ((sortedScores_sorted r.metric scores).2 hm) x
      (hperm.mem_iff.mpr hx)

/-- Witness for C7 at a concrete run with score attachment. -/
theorem c7_witness :
    findKey recDemoScored "scores"
        = some (JVal.jarr ((sortedScores RERANK_BLEU [1, 2]).map JVal.jnum)) ∧
      findKey recDemoScored "score"
        = some (JVal.jnum ((sortedScores RERANK_BLEU [1, 2]).headD 0)) ∧
      (sortedScores RERANK_BLEU [1, 2]).headD 0 ∈ ([1, 2] : List Rat) ∧
      (RERANK_BLEU = RERANK_ISOMETRIC_LC →
        ∀ x ∈ ([1, 2] : List Rat), (sortedScores RERANK_BLEU [1, 2]).headD 0 ≤ x) ∧
      (RERANK_BLEU ≠ RERANK_ISOMETRIC_LC →
        ∀ x ∈ ([1, 2] : List Rat), x ≤ (sortedScores RERANK_BLEU [1, 2]).headD 0) :=
  c7_score_attachment envDemo rerankerBleuScores recDemo "ref" recDemoScored [1, 2]
    rfl rfl rfl

/-- C8 (confirmed): in best-hypothesis output mode, with reference substitution
disabled and the forward scan enabled, the ranked hypotheses
`["", "", "good translation"]` emit `"good translation"`, not the blank. -/
theorem c8_forward_scan_fallback (reference : String) :
    emitBest false true reference recBlank2Good 3 = some "good translation" := rfl

/-- C9 (confirmed): with score attachment enabled, the output `scores` field
holds exactly the flat list of newly computed metric scores in ranked order —
the upstream per-hypothesis score sequences are overwritten, not kept. -/
theorem c9_scores_overwritten (env : ScoringEnv) (r : Reranker) (hyp : Record)
    (ref : String) (out : Record) (scores : List Rat)
    (hrs : r.return_score = true)
    (hrun : Reranker.rerank env r hyp ref = some out)
    (hsc : computeScores env r hyp ref = some scores) :
    findKey out "scores"
      = some (JVal.jarr ((rankingIndices r.metric scores).map
          fun i => JVal.jnum (scores.getD i 0))) := by
  obtain ⟨scores', reranked, hsc', hsb, hrest⟩ := rerank_run hrun
  rw [hsc] at hsc'
  obtain rfl : scores = scores' := Option.some.inj hsc'
  rcases hrest with ⟨hfalse, _⟩ | ⟨_, hne, rfl⟩
  · rw [hrs] at hfalse; cases hfalse
  rw [findKey_setKey_ne _ (by decide) _, findKey_setKey_self]
  simp only [sortedScores, List.map_map]
  rfl

/-- Witness for C9: the record `recDemoS`, whose upstream score sequences are
`[[9], [8]]`, comes out with the flat computed scores instead. -/
theorem c9_witness :
    findKey recDemoSOut "scores"
      = some (JVal.jarr ((rankingIndices RERANK_BLEU [1, 2]).map
          fun i => JVal.jnum (([1, 2] : List Rat).getD i 0))) :=
  c9_scores_overwritten envDemo rerankerBleuScores recDemoS "ref" recDemoSOut [1, 2]
    rfl rfl rfl

/-- C10 (confirmed): the forward scan only runs for records with more than one
hypothesis; a single blank hypothesis is emitted as the blank line even with
the scan enabled, for every scoring environment and reranker. -/
theorem c10_no_scan_single (env : ScoringEnv) (r : Reranker) (reference : String) :
    processLineBest env r false true reference recSingleBlank = some "" := rfl

end Sockeye
